import Mathlib

/-!
Verification of the rule-evaluation and traversal engine of the CodebaseScanner
repository (`scan_engine.py`): `should_process_item`, `process_directory` and
`generate_directory_tree_text`, together with the constants of `app_config.py`
that they use.

Modelling conventions:
* Paths are strings over the POSIX separator `/`.  Every function of
  `scan_engine.py` normalises its path arguments with `os.path.normpath` on
  entry, and all rule paths are stored normalised; `normpath` is the identity
  on normalised paths, so the embedding works with already-normalised paths
  throughout and `os.path.join(dir, name)` of a normalised directory and a
  plain entry name is the literal concatenation `dir ++ "/" ++ name`.
* The filesystem seen by one scan is an immutable tree: a directory listing is
  either an error (the `except` branch of `os.listdir`) or a list of entries,
  each entry being a file (whose `open`/`read` either fails with an error
  message or yields its text) or a subdirectory.  `os.path.isfile` is the
  entry's constructor.
* The output sink records one `WriteEvent` per `output_file.write(...)` call,
  each carrying exactly the data interpolated into the written f-string;
  `render` maps an event to the exact string written, so the byte stream is
  `renderAll` of the event list.
* Python's `list.sort` is a stable sort by `<` on unicode code points; it is
  modelled by a stable insertion sort over an explicit code-point comparison
  (the built-in `String` order of Lean does not reduce in the kernel).
* `status_callback` only emits progress messages and never reaches the output
  file; it is dropped from the model.
-/

/-- Python `os.sep` on the POSIX platform the scanner runs on. -/
def osSep : String := "/"

/-- Python `s.startswith(pre)`: comparison of code-point sequences. -/
def strStartsWith (s pre : String) : Bool := pre.data.isPrefixOf s.data

/-- Python `os.path.join(dir, name)` for a normalised `dir` and a plain entry
name, as produced by `os.listdir`. -/
def pjoin (dir name : String) : String := dir ++ osSep ++ name

/-- Lexicographic comparison of code-point lists; Python string ordering. -/
def chListLe : List Char → List Char → Bool
  | [], _ => true
  | _ :: _, [] => false
  | a :: as, b :: bs =>
      if a.toNat < b.toNat then true
      else if b.toNat < a.toNat then false
      else chListLe as bs

/-- Python string `<=` (lexicographic by code point). -/
def strLe (a b : String) : Bool := chListLe a.data b.data

/-- Insert `a` into `l` before the first element `b` with `le a b`. -/
def orderedInsertBy (le : α → α → Bool) (a : α) : List α → List α
  | [] => [a]
  | b :: l => if le a b then a :: b :: l else b :: orderedInsertBy le a l

/-- Stable insertion sort.  For a total preorder comparison this produces the
same list as Python's (stable) `list.sort`. -/
def insertionSortBy (le : α → α → Bool) : List α → List α
  | [] => []
  | a :: l => orderedInsertBy le a (insertionSortBy le l)

/-- The two filter modes `FILTER_BLACKLIST` / `FILTER_WHITELIST` of
`app_config.py`. -/
inductive FilterMode where
  | blacklist
  | whitelist
deriving DecidableEq, Repr

/-- `scan_engine.should_process_item` (lines 46-77).  The unknown-mode
fallthrough of the source cannot occur: `FilterMode` has exactly the two
values compared against. -/
def should_process_item (item_path : String) (is_file : Bool)
    (rules_files rules_folders : List String) (filter_mode : FilterMode)
    (whitelisted_parent_folders : List String) : Bool :=
  match filter_mode with
  | .blacklist =>
      if is_file then
        if rules_files.contains item_path then false
        else if rules_folders.any (fun fr => strStartsWith item_path (fr ++ osSep)) then false
        else true
      else
        if rules_folders.contains item_path then false
        else if rules_folders.any (fun fr => strStartsWith item_path (fr ++ osSep)) then false
        else true
  | .whitelist =>
      if whitelisted_parent_folders.any
          (fun wf => strStartsWith item_path (wf ++ osSep) || item_path == wf) then
        true
      else if is_file then
        rules_files.contains item_path
      else
        rules_folders.contains item_path

/-- The `can_contain_whitelisted` computation of `process_directory`
(lines 129-141): a rejected folder is still recursed into when a whitelisted
file lies beneath it, or a whitelisted folder is it or lies beneath it. -/
def can_contain_whitelisted (item_path : String)
    (rules_files rules_folders : List String) : Bool :=
  if rules_files.any (fun rf => strStartsWith rf (item_path ++ osSep)) then true
  else rules_folders.any
    (fun rfo => rfo == item_path || strStartsWith rfo (item_path ++ osSep))

/-- The ancestor-list extension of `process_directory` (lines 86-89 for the
current directory, repeated at lines 151-155 for each child): in whitelist
mode a directory that is itself a folder rule is appended to the ancestor
list, if not already present. -/
def extend_ancestors (filter_mode : FilterMode) (rules_folders : List String)
    (path : String) (anc : List String) : List String :=
  if filter_mode == .whitelist && rules_folders.contains path && !(anc.contains path) then
    anc ++ [path]
  else anc

/-- The whitelisted-scope test of `process_directory`, computed identically in
the error branch (lines 97-105) and before the heading decision
(lines 163-171): the directory is directly whitelisted, or lies strictly
below some whitelisted ancestor. -/
def in_whitelisted_scope (rules_folders : List String) (directory : String)
    (anc : List String) : Bool :=
  rules_folders.contains directory ||
    anc.any (fun wf => strStartsWith directory (wf ++ osSep))

/-- Python `os.path.basename` on a normalised path: everything after the last
separator. -/
def basename (p : String) : String :=
  String.mk ((p.data.reverse.takeWhile (fun c => c ≠ '/')).reverse)

/-- A run of `n` characters `#`, the `heading_prefix` strings of the source. -/
def hashes (n : Nat) : String := String.mk (List.replicate n '#')

/-- The extension part of Python `os.path.splitext(filename)` for a plain file
name (no separator): the suffix from the last dot, unless all characters
before that dot are dots themselves. -/
def splitext_ext (filename : String) : String :=
  let rev := filename.data.reverse
  let after := rev.takeWhile (fun c => c ≠ '.')
  if after.length = rev.length then ""
  else
    let before := (rev.drop (after.length + 1)).reverse
    if before.all (fun c => c = '.') then ""
    else String.mk ('.' :: after.reverse)

/-- `LANG_MAP` of `app_config.py`. -/
def LANG_MAP : List (String × String) :=
  [(".py", "python"), (".js", "javascript"), (".jsx", "javascript"),
   (".ts", "typescript"), (".tsx", "typescript"), (".html", "html"),
   (".css", "css"), (".scss", "scss"), (".json", "json"), (".yaml", "yaml"),
   (".yml", "yaml"), (".md", "markdown"), (".sh", "bash"), (".java", "java"),
   (".cs", "csharp"), (".cpp", "cpp"), (".c", "c"), (".h", "c"),
   (".hpp", "cpp"), (".go", "go"), (".php", "php"), (".rb", "ruby"),
   (".rs", "rust"), (".swift", "swift"), (".kt", "kotlin"),
   (".kts", "kotlin"), (".sql", "sql"), (".xml", "xml"),
   (".dockerfile", "dockerfile"), (".txt", "text")]

/-- `scan_engine.get_language_hint` (lines 6-9). -/
def get_language_hint (filename : String) : String :=
  let ext := String.mk ((splitext_ext filename).data.map Char.toLower)
  match LANG_MAP.lookup ext with
  | some hint => hint
  | none => ""

/-- One `output_file.write(...)` call of `process_directory`, tagged with the
data interpolated into the written f-string; `render` recovers the exact
bytes written. -/
inductive WriteEvent where
  | errDirHeading (level : Nat)
  | pathLine (path : String)
  | errLine (msg : String)
  | dirHeading (level : Nat) (name : String)
  | filesHeading (level : Nat)
  | fileLine (name : String)
  | fenceOpen (hint : String)
  | fileContent (content : String)
  | fenceClose
  | fileReadError (msg : String)
  | emptyNote
deriving DecidableEq, Repr

/-- The exact string written for each event (`heading_level = level + 2`,
`file_heading_level = heading_level + 1`). -/
def render : WriteEvent → String
  | .errDirHeading level => hashes (level + 2) ++ " Error Reading Directory\n\n"
  | .pathLine path => "**Path:** `" ++ path ++ "`\n\n"
  | .errLine msg => "**Error:** `" ++ msg ++ "`\n\n"
  | .dirHeading level name => hashes (level + 2) ++ " Directory: " ++ name ++ "\n\n"
  | .filesHeading level => hashes (level + 3) ++ " Files\n\n"
  | .fileLine name => "**File:** `" ++ name ++ "`\n"
  | .fenceOpen hint => "```" ++ hint ++ "\n"
  | .fileContent content => content
  | .fenceClose => "\n```\n\n"
  | .fileReadError msg => "**Error reading file:** `" ++ msg ++ "`\n\n"
  | .emptyNote => "*This folder is empty or all its contents were excluded/not included by rules.*\n\n"

/-- Concatenation of the bytes of a write-event sequence: the content of the
output sink. -/
def renderAll : List WriteEvent → String
  | [] => ""
  | e :: es => render e ++ renderAll es

mutual

/-- Result of `os.listdir` on one directory: an `OSError` message, or the
entries in enumeration order. -/
inductive DirListing where
  | err (msg : String)
  | ok (items : EntryList)

/-- A directory's entries in the order `os.listdir` returned them. -/
inductive EntryList where
  | nil
  | cons (e : Entry) (es : EntryList)

/-- One directory entry: a file together with the result of reading it
(`open`/`read` may raise), or a subdirectory with its own listing. -/
inductive Entry where
  | file (name : String) (content : Except String String)
  | dir (name : String) (listing : DirListing)

end

/-- The name of an entry. -/
def entryName : Entry → String
  | .file n _ => n
  | .dir n _ => n

/-- Conversion of the entry list to a standard list. -/
def EntryList.toList : EntryList → List Entry
  | .nil => []
  | .cons e es => e :: es.toList

/-- Building an entry list from a standard list. -/
def ofList : List Entry → EntryList
  | [] => .nil
  | e :: es => .cons e (ofList es)

/-- Python truthiness of `items`: whether the listing is empty. -/
def EntryList.isNil : EntryList → Bool
  | .nil => true
  | .cons _ _ => false

/-- The names of a directory's entries, in listing order. -/
def entryNames : EntryList → List String
  | .nil => []
  | .cons e es => entryName e :: entryNames es

/-- The events written for one file of the `files_to_output` loop
(lines 203-217): the `**File:**` line, then either the fenced content block
or the per-file error annotation. -/
def file_block : String × Except String String → List WriteEvent
  | (n, .ok content) =>
      [.fileLine n, .fenceOpen (get_language_hint n), .fileContent content, .fenceClose]
  | (n, .error e) => [.fileLine n, .fileReadError e]

/-- The events written after the directory heading (lines 199-222): the
`Files` sub-heading with one block per sorted file, or the empty-folder note
when the directory is empty, nothing came from subdirectories, and the mode
or whitelist scope warrants it. -/
def files_section (filter_mode : FilterMode) (level : Nat)
    (files_sorted : List (String × Except String String))
    (items_empty no_subdir_content is_current_scope : Bool) : List WriteEvent :=
  if !files_sorted.isEmpty then
    .filesHeading level :: (files_sorted.map file_block).flatten
  else if items_empty && no_subdir_content then
    if filter_mode == .blacklist || (filter_mode == .whitelist && is_current_scope) then
      [.emptyNote]
    else []
  else []

/-- The heading decision of `process_directory` (lines 162-188). -/
def should_write_header (filter_mode : FilterMode)
    (files_nonempty children_nonempty items_empty : Bool) (level : Nat)
    (is_current_scope : Bool) : Bool :=
  match filter_mode with
  | .blacklist =>
      files_nonempty || children_nonempty ||
        (items_empty && level == 0 && !files_nonempty && !children_nonempty)
  | .whitelist =>
      (is_current_scope && (files_nonempty || children_nonempty || items_empty)) ||
        files_nonempty || children_nonempty

mutual

/-- `scan_engine.process_directory` (lines 80-224), returning the write
events of this subtree and the `content_written_for_this_branch` result.
The recursion into sorted subdirectories (lines 146-159) is modelled by
computing each child's result during the single pass over `items`
(the per-child results are independent of processing order) and stably
sorting the `(name, result)` pairs by name, which yields the same write
sequence as sorting `dirs_to_recurse_info` by name first. -/
def process_directory (listing : DirListing) (directory : String)
    (rules_files rules_folders : List String) (filter_mode : FilterMode)
    (level : Nat) (whitelisted_ancestor_folders : List String) :
    List WriteEvent × Bool :=
  match listing with
  | .err e =>
      if filter_mode == .blacklist ||
          (filter_mode == .whitelist &&
            in_whitelisted_scope rules_folders directory whitelisted_ancestor_folders) then
        ([.errDirHeading level, .pathLine directory, .errLine e], true)
      else
        ([], false)
  | .ok items =>
      let current := extend_ancestors filter_mode rules_folders directory
        whitelisted_ancestor_folders
      let pr := process_items items directory rules_files rules_folders filter_mode
        level current
      let files_sorted := insertionSortBy (fun a b => strLe a.1 b.1) pr.1
      let children_sorted := insertionSortBy (fun a b => strLe a.1 b.1) pr.2
      let children_out := (children_sorted.map (fun c => c.2.1)).flatten
      let any_child := children_sorted.any (fun c => c.2.2)
      let is_current_scope := filter_mode == .whitelist &&
        in_whitelisted_scope rules_folders directory whitelisted_ancestor_folders
      if should_write_header filter_mode (!files_sorted.isEmpty) any_child
          items.isNil level is_current_scope then
        (children_out ++
          [.dirHeading level (basename directory), .pathLine directory] ++
          files_section filter_mode level files_sorted items.isNil (!any_child)
            is_current_scope, true)
      else
        (children_out, any_child)

/-- The per-item categorisation loop of `process_directory` (lines 119-143)
together with the recursive calls on the retained subdirectories
(lines 150-159): returns the `(name, read-result)` pairs of the files to
output and, for each directory retained for recursion, the pair of its name
and its recursive `process_directory` result, both in listing order. -/
def process_items (items : EntryList) (directory : String)
    (rules_files rules_folders : List String) (filter_mode : FilterMode)
    (level : Nat) (current_anc : List String) :
    List (String × Except String String) × List (String × (List WriteEvent × Bool)) :=
  match items with
  | .nil => ([], [])
  | .cons e es =>
      let rest := process_items es directory rules_files rules_folders filter_mode
        level current_anc
      match e with
      | .file n c =>
          if should_process_item (pjoin directory n) true rules_files rules_folders
              filter_mode current_anc then
            ((n, c) :: rest.1, rest.2)
          else rest
      | .dir n sub =>
          let q := pjoin directory n
          if should_process_item q false rules_files rules_folders filter_mode
              current_anc ||
              (filter_mode == .whitelist && can_contain_whitelisted q rules_files
                rules_folders) then
            (rest.1,
              (n, process_directory sub q rules_files rules_folders filter_mode
                (level + 1) (extend_ancestors filter_mode rules_folders q current_anc))
                :: rest.2)
          else rest

end

/-- Write events carrying a heading level at least `lvl`; the events a
recursive call at depth `lvl` can produce all satisfy this, which separates a
directory's own heading from those of its descendants. -/
def event_level_ge (lvl : Nat) : WriteEvent → Prop
  | .errDirHeading l => lvl ≤ l
  | .dirHeading l _ => lvl ≤ l
  | .filesHeading l => lvl ≤ l
  | _ => True

/-- Whether an event is a `## Directory:` heading write (line 195). -/
def isDirHeading : WriteEvent → Bool
  | .dirHeading _ _ => true
  | _ => false

/-- The number of directory headings in a write-event sequence. -/
def countDirHeadings (l : List WriteEvent) : Nat := l.countP isDirHeading

/-- Name-comparison of entries, the key used to canonicalise a listing. -/
def entryLe (a b : Entry) : Bool := strLe (entryName a) (entryName b)

mutual

/-- Canonical form of a listing: every directory's entries sorted by name,
recursively.  Two enumerations of the same on-disk tree (which has no
duplicate names within a directory) have the same canonical form. -/
def canonListing : DirListing → DirListing
  | .err e => .err e
  | .ok items => .ok (ofList (insertionSortBy entryLe (canonEntries items)))

/-- Canonical form of each entry, in listing order. -/
def canonEntries : EntryList → List Entry
  | .nil => []
  | .cons (.file n c) es => .file n c :: canonEntries es
  | .cons (.dir n s) es => .dir n (canonListing s) :: canonEntries es

end

/-- Canonical form of a single entry: files unchanged, subdirectory listings
canonicalised. -/
def canonEntry : Entry → Entry
  | .file n c => .file n c
  | .dir n s => .dir n (canonListing s)

mutual

/-- No two entries of any one directory share a name, recursively: the
well-formedness every real directory tree satisfies. -/
def nodupNames : DirListing → Bool
  | .err _ => true
  | .ok items => decide (entryNames items).Nodup && nodupEntries items

/-- Well-formedness of every subtree hanging off an entry list. -/
def nodupEntries : EntryList → Bool
  | .nil => true
  | .cons (.file _ _) es => nodupEntries es
  | .cons (.dir _ s) es => nodupNames s && nodupEntries es

end

/-- Well-formedness contribution of a single entry. -/
def entryNodup : Entry → Bool
  | .file _ _ => true
  | .dir _ s => nodupNames s

/-- Permutation of entry lists in which related entries have the same name
and, for files, the same content and, for subdirectories, listings that are
again shuffles of one another: the entries of one directory enumerated in
two different orders. -/
inductive EntriesShuffle : EntryList → EntryList → Prop where
  | nil : EntriesShuffle .nil .nil
  | consFile (n : String) (c : Except String String) {t₁ t₂ : EntryList} :
      EntriesShuffle t₁ t₂ →
      EntriesShuffle (.cons (.file n c) t₁) (.cons (.file n c) t₂)
  | consDirErr (n e : String) {t₁ t₂ : EntryList} : EntriesShuffle t₁ t₂ →
      EntriesShuffle (.cons (.dir n (.err e)) t₁) (.cons (.dir n (.err e)) t₂)
  | consDirOk (n : String) {s₁ s₂ : EntryList} {t₁ t₂ : EntryList} :
      EntriesShuffle s₁ s₂ → EntriesShuffle t₁ t₂ →
      EntriesShuffle (.cons (.dir n (.ok s₁)) t₁) (.cons (.dir n (.ok s₂)) t₂)
  | swap (a b : Entry) (t : EntryList) :
      EntriesShuffle (.cons a (.cons b t)) (.cons b (.cons a t))
  | trans {l₁ l₂ l₃ : EntryList} : EntriesShuffle l₁ l₂ → EntriesShuffle l₂ l₃ →
      EntriesShuffle l₁ l₃

/-- Two listings of the same directory tree taken in possibly different
enumeration orders: the same error, or shuffled entries. -/
def ListingShuffle : DirListing → DirListing → Prop
  | .err e₁, .err e₂ => e₁ = e₂
  | .ok l₁, .ok l₂ => EntriesShuffle l₁ l₂
  | _, _ => False

/-- Rendering of the sorted children of one tree node with the positional
last-entry flag of lines 39-42: every child but the last renders with
`is_last = False`, the last with `is_last = True`. -/
def applyIsLast : List (Bool → String) → String
  | [] => ""
  | [f] => f true
  | f :: g :: rest => f false ++ applyIsLast (g :: rest)

mutual

/-- `scan_engine.generate_directory_tree_text` (lines 11-44).  The source
sorts the child directory names and recurses positionally; the model collects
one rendering closure per child subdirectory in listing order, stably sorts
the `(name, closure)` pairs by name (the same order), and applies the
positional last-entry flag. -/
def generate_directory_tree_text (t : DirListing) (start_path : String)
    (tree_blacklist : List String) (pfx : String) (is_last : Bool) : String :=
  if tree_blacklist.contains start_path then ""
  else
    (pfx ++ (if is_last then "└── " else "├── ") ++ basename start_path ++ "/\n") ++
      applyIsLast
        ((insertionSortBy (fun a b => strLe a.1 b.1)
            (match t with
             | .err _ => []
             | .ok items =>
                 tree_children_entries items start_path tree_blacklist
                   (pfx ++ (if is_last then "    " else "│   ")))).map Prod.snd)

/-- One rendering closure per subdirectory entry, in listing order: the
`os.scandir` filtering of line 34 keeps only subdirectories, and an `OSError`
is treated as an empty listing (lines 36-37, the `err` arm above). -/
def tree_children_entries (items : EntryList) (dir : String) (bl : List String)
    (pfx : String) : List (String × (Bool → String)) :=
  match items with
  | .nil => []
  | .cons (.file _ _) es => tree_children_entries es dir bl pfx
  | .cons (.dir n sub) es =>
      (n, fun il => generate_directory_tree_text sub (pjoin dir n) bl pfx il) ::
        tree_children_entries es dir bl pfx

end

/-- Bridge from the executable membership test to list membership. -/
theorem contains_iff_mem (l : List String) (a : String) :
    l.contains a = true ↔ a ∈ l := List.elem_iff

/-- Structural induction on an entry list alone (the mutual recursor of the
tree family specialised to a trivial motive on the other two types). -/
theorem EntryList.induct (motive : EntryList → Prop) (nil : motive .nil)
    (cons : ∀ e es, motive es → motive (.cons e es)) : ∀ l, motive l := fun l =>
  match l with
  | .nil => nil
  | .cons e es => cons e es (EntryList.induct motive nil cons es)

/-- C10: in Blacklist mode `should_process_item` never reads the
whitelisted-ancestors argument, so any two values of it give the same
result. -/
theorem blacklist_independent_of_ancestors (item_path : String) (is_file : Bool)
    (rules_files rules_folders : List String) (anc₁ anc₂ : List String) :
    should_process_item item_path is_file rules_files rules_folders .blacklist anc₁ =
      should_process_item item_path is_file rules_files rules_folders .blacklist anc₂ := rfl

/-- C2: in Blacklist mode `should_process_item` returns `false` exactly for an
item whose path is an exact member of the matching rule set (files for files,
folders for directories) or lies under some folder rule (folder rule plus
separator is a prefix of the path); it returns `true` for every other item. -/
theorem blacklist_should_process_iff (item_path : String) (is_file : Bool)
    (rules_files rules_folders : List String) (anc : List String) :
    should_process_item item_path is_file rules_files rules_folders .blacklist anc = false ↔
      ((is_file = true ∧ (item_path ∈ rules_files ∨
          ∃ fr ∈ rules_folders, strStartsWith item_path (fr ++ osSep) = true)) ∨
       (is_file = false ∧ (item_path ∈ rules_folders ∨
          ∃ fr ∈ rules_folders, strStartsWith item_path (fr ++ osSep) = true))) := by
  cases is_file <;>
    simp [should_process_item, contains_iff_mem, List.any_eq_true] <;>
    tauto

/-- C1: in Whitelist mode `should_process_item` returns `true` exactly when
the path equals, or lies under (ancestor plus separator is a prefix), some
whitelisted ancestor — regardless of the rule sets — or, failing that, when
the path is a member of the files rule set (for a file) respectively of the
folders rule set (for a directory). -/
theorem whitelist_should_process_iff (item_path : String) (is_file : Bool)
    (rules_files rules_folders : List String) (anc : List String) :
    should_process_item item_path is_file rules_files rules_folders .whitelist anc = true ↔
      ((∃ wf ∈ anc, item_path = wf ∨ strStartsWith item_path (wf ++ osSep) = true) ∨
       (is_file = true ∧ item_path ∈ rules_files) ∨
       (is_file = false ∧ item_path ∈ rules_folders)) := by
  have hcomm : (∃ wf ∈ anc,
        strStartsWith item_path (wf ++ osSep) = true ∨ item_path = wf) ↔
      (∃ wf ∈ anc, item_path = wf ∨ strStartsWith item_path (wf ++ osSep) = true) := by
    constructor <;> rintro ⟨wf, hm, h | h⟩ <;> exact ⟨wf, hm, by tauto⟩
  cases is_file <;>
    simp [should_process_item, contains_iff_mem, List.any_eq_true, hcomm]

/-- The retention test for a rejected whitelist-mode folder, in the spec's
terms: some whitelisted file lies beneath it, or some whitelisted folder is
it or lies beneath it. -/
theorem can_contain_or (q : String) (rules_files rules_folders : List String) :
    can_contain_whitelisted q rules_files rules_folders =
      (rules_files.any (fun rf => strStartsWith rf (q ++ osSep)) ||
       rules_folders.any (fun fo => fo == q || strStartsWith fo (q ++ osSep))) := by
  rw [can_contain_whitelisted]
  by_cases h : rules_files.any (fun rf => strStartsWith rf (q ++ osSep)) = true <;>
    simp [h]

/-- The retention test, as a proposition. -/
theorem can_contain_iff (q : String) (rules_files rules_folders : List String) :
    can_contain_whitelisted q rules_files rules_folders = true ↔
      ((∃ rf ∈ rules_files, strStartsWith rf (q ++ osSep) = true) ∨
       (∃ fo ∈ rules_folders, fo = q ∨ strStartsWith fo (q ++ osSep) = true)) := by
  simp [can_contain_or, List.any_eq_true, beq_iff_eq]

/-- C3: in Whitelist mode the directories retained for recursion are exactly
the child directories that pass `should_process_item` or that could still
contain whitelisted content: a child is omitted only when it is rejected AND
no files rule lies beneath it AND no folders rule equals it or lies beneath
it. -/
theorem whitelist_recursion_set (items : EntryList) (directory : String)
    (rules_files rules_folders : List String) (level : Nat) (anc : List String) :
    ((process_items items directory rules_files rules_folders .whitelist level
        anc).2).map Prod.fst =
      items.toList.filterMap (fun e =>
        match e with
        | .file _ _ => none
        | .dir n _ =>
            if should_process_item (pjoin directory n) false rules_files rules_folders
                  .whitelist anc = true ∨
                (∃ rf ∈ rules_files,
                  strStartsWith rf (pjoin directory n ++ osSep) = true) ∨
                (∃ fo ∈ rules_folders, fo = pjoin directory n ∨
                  strStartsWith fo (pjoin directory n ++ osSep) = true) then
              some n
            else none) := by
  induction items using EntryList.induct with
  | nil => simp [process_items, EntryList.toList]
  | cons e es ih =>
      cases e with
      | file n c =>
          by_cases hf : should_process_item (pjoin directory n) true rules_files
              rules_folders .whitelist anc = true <;>
            simp [process_items, EntryList.toList, hf, ih]
      | dir n sub =>
          have hiff : (should_process_item (pjoin directory n) false rules_files
                rules_folders .whitelist anc = true ∨
              (∃ rf ∈ rules_files,
                strStartsWith rf (pjoin directory n ++ osSep) = true) ∨
              (∃ fo ∈ rules_folders, fo = pjoin directory n ∨
                strStartsWith fo (pjoin directory n ++ osSep) = true)) ↔
              (should_process_item (pjoin directory n) false rules_files rules_folders
                .whitelist anc = true ∨
               can_contain_whitelisted (pjoin directory n) rules_files
                 rules_folders = true) := by
            rw [can_contain_iff]
          by_cases hc : should_process_item (pjoin directory n) false rules_files
              rules_folders .whitelist anc = true ∨
              can_contain_whitelisted (pjoin directory n) rules_files
                rules_folders = true
          · simp [process_items, EntryList.toList, hc, hiff.mpr hc, ih]
          · simp [process_items, EntryList.toList, hc, hiff.not.mpr hc, ih]

/-- C9 counterexample: a root with no subdirectories at all — so in
particular no non-blacklisted ones — and an empty blacklist still renders
its own connector line `└── r/`, not the empty string. -/
theorem tree_text_counterexample :
    ¬(generate_directory_tree_text (.ok .nil) "/r" [] "" true = "") := by decide

/-- C9 amended: `generate_directory_tree_text` returns the empty string
exactly when the root's own normalised path is a member of the tree
blacklist; for a non-blacklisted root the output always contains the root's
connector line, even when the root has no non-blacklisted subdirectories. -/
theorem tree_text_empty_iff (t : DirListing) (p : String) (bl : List String)
    (pfx : String) (il : Bool) :
    generate_directory_tree_text t p bl pfx il = "" ↔ bl.contains p = true := by
  have h2 : ("/\n" : String).length = 2 := by decide
  have h0 : ("" : String).length = 0 := by decide
  have hc1 : ("├── " : String).length = 4 := by decide
  have hc2 : ("└── " : String).length = 4 := by decide
  rw [generate_directory_tree_text.eq_def]
  by_cases hb : bl.contains p = true
  · have hm : p ∈ bl := contains_iff_mem bl p |>.mp hb
    simp [hb, hm]
  · have hb' : bl.contains p = false := by simpa using hb
    rw [if_neg hb, hb']
    simp only [Bool.false_eq_true, iff_false]
    intro h
    have hl := congrArg String.length h
    cases il <;>
      simp only [String.length_append, Bool.false_eq_true, if_false, if_true,
        eq_self_iff_true, h2, h0, hc1, hc2] at hl <;>
      omega

/-- The whitelisted-scope test, as a proposition. -/
theorem in_whitelisted_scope_iff (rules_folders : List String) (d : String)
    (anc : List String) :
    in_whitelisted_scope rules_folders d anc = true ↔
      (d ∈ rules_folders ∨ ∃ wf ∈ anc, strStartsWith d (wf ++ osSep) = true) := by
  simp [in_whitelisted_scope, contains_iff_mem, List.any_eq_true]

/-- C7: when listing a directory fails, `process_directory` returns rather
than propagating: in Blacklist mode, or in Whitelist mode with the failing
directory in whitelisted scope (a member of the folders rules or below a
whitelisted ancestor), it writes an error block whose bytes contain the
directory path and the error message and returns `true`; otherwise it writes
nothing and returns `false`.  (The model is a total function, so sibling and
ancestor traversal always continues.) -/
theorem error_branch_behavior (e d : String) (rules_files rules_folders : List String)
    (m : FilterMode) (lvl : Nat) (anc : List String) :
    ((m = .blacklist ∨ (m = .whitelist ∧ (d ∈ rules_folders ∨
        ∃ wf ∈ anc, strStartsWith d (wf ++ osSep) = true))) →
      (∃ s₁ s₂, renderAll
          (process_directory (.err e) d rules_files rules_folders m lvl anc).1 =
        s₁ ++ d ++ s₂) ∧
      (∃ t₁ t₂, renderAll
          (process_directory (.err e) d rules_files rules_folders m lvl anc).1 =
        t₁ ++ e ++ t₂) ∧
      (process_directory (.err e) d rules_files rules_folders m lvl anc).2 = true) ∧
    ((m = .whitelist ∧ ¬(d ∈ rules_folders ∨
        ∃ wf ∈ anc, strStartsWith d (wf ++ osSep) = true)) →
      (process_directory (.err e) d rules_files rules_folders m lvl anc).1 = [] ∧
      (process_directory (.err e) d rules_files rules_folders m lvl anc).2 = false) := by
  constructor
  · intro h
    have hcond : (m == FilterMode.blacklist ||
        (m == FilterMode.whitelist && in_whitelisted_scope rules_folders d anc)) = true := by
      rcases h with h | ⟨hm, hs⟩
      · simp [h]
      · simp [hm, (in_whitelisted_scope_iff rules_folders d anc).mpr hs]
    refine ⟨⟨hashes (lvl + 2) ++ " Error Reading Directory\n\n" ++ "**Path:** `",
        "`\n\n" ++ ("**Error:** `" ++ (e ++ "`\n\n")), ?_⟩,
      ⟨hashes (lvl + 2) ++ " Error Reading Directory\n\n" ++
        ("**Path:** `" ++ (d ++ "`\n\n")) ++ "**Error:** `", "`\n\n", ?_⟩, ?_⟩
    · simp only [process_directory.eq_def]
      rw [if_pos hcond]
      apply String.ext
      simp [renderAll, render, String.data_append]
    · simp only [process_directory.eq_def]
      rw [if_pos hcond]
      apply String.ext
      simp [renderAll, render, String.data_append]
    · simp only [process_directory.eq_def]
      rw [if_pos hcond]
  · rintro ⟨hm, hs⟩
    have hs' : in_whitelisted_scope rules_folders d anc = false := by
      by_contra hx
      exact hs ((in_whitelisted_scope_iff rules_folders d anc).mp (by simpa using hx))
    simp [process_directory, hm, hs']

/-- C7 witness: the error branch at concrete inputs, in Blacklist mode. -/
theorem error_branch_witness :
    (∃ s₁ s₂, renderAll
        (process_directory (.err "denied") "/r" [] [] .blacklist 4 []).1 =
      s₁ ++ "/r" ++ s₂) ∧
    (∃ t₁ t₂, renderAll
        (process_directory (.err "denied") "/r" [] [] .blacklist 4 []).1 =
      t₁ ++ "denied" ++ t₂) ∧
    (process_directory (.err "denied") "/r" [] [] .blacklist 4 []).2 = true :=
  (error_branch_behavior "denied" "/r" [] [] .blacklist 4 []).1 (Or.inl rfl)

/-- Membership through ordered insertion. -/
theorem mem_orderedInsertBy {α : Type} (le : α → α → Bool) (a x : α)
    (l : List α) : x ∈ orderedInsertBy le a l ↔ x = a ∨ x ∈ l := by
  induction l with
  | nil => simp [orderedInsertBy]
  | cons b t ih =>
      by_cases h : le a b = true
      · simp [orderedInsertBy, h]
      · simp [orderedInsertBy, h, ih]
        tauto

/-- Ordered insertion is a permutation of consing. -/
theorem orderedInsertBy_perm {α : Type} (le : α → α → Bool) (a : α)
    (l : List α) : (orderedInsertBy le a l).Perm (a :: l) := by
  induction l with
  | nil => simp [orderedInsertBy]
  | cons b t ih =>
      by_cases h : le a b = true
      · simp [orderedInsertBy, h]
      · simp only [orderedInsertBy, h, Bool.false_eq_true, if_false]
        exact (ih.cons b).trans (List.Perm.swap a b t)

/-- The sorted list is a permutation of the input. -/
theorem insertionSortBy_perm {α : Type} (le : α → α → Bool) (l : List α) :
    (insertionSortBy le l).Perm l := by
  induction l with
  | nil => simp [insertionSortBy]
  | cons a t ih => exact (orderedInsertBy_perm le a _).trans (ih.cons a)

/-- Membership through sorting. -/
theorem mem_insertionSortBy {α : Type} (le : α → α → Bool) (x : α) (l : List α) :
    x ∈ insertionSortBy le l ↔ x ∈ l :=
  (insertionSortBy_perm le l).mem_iff

/-- Sorting preserves `any`. -/
theorem any_insertionSortBy {α : Type} (le : α → α → Bool) (p : α → Bool)
    (l : List α) : (insertionSortBy le l).any p = l.any p := by
  rcases h : l.any p with _ | _
  · rw [List.any_eq_false] at h ⊢
    intro x hx
    exact h x ((mem_insertionSortBy le x l).mp hx)
  · rw [List.any_eq_true] at h ⊢
    obtain ⟨x, hx, hp⟩ := h
    exact ⟨x, (mem_insertionSortBy le x l).mpr hx, hp⟩

/-- Sorting preserves emptiness. -/
theorem insertionSortBy_eq_nil {α : Type} (le : α → α → Bool) (l : List α) :
    insertionSortBy le l = [] ↔ l = [] := by
  constructor <;> intro h
  · have := (insertionSortBy_perm le l).length_eq
    rw [h] at this
    exact List.length_eq_zero.mp this.symm
  · simp [h, insertionSortBy]

/-- Sorting preserves `isEmpty`. -/
theorem isEmpty_insertionSortBy {α : Type} (le : α → α → Bool) (l : List α) :
    (insertionSortBy le l).isEmpty = l.isEmpty := by
  rcases h : l.isEmpty with _ | _
  · simp only [List.isEmpty_eq_false_iff_exists_mem] at h ⊢
    obtain ⟨x, hx⟩ := h
    exact ⟨x, (mem_insertionSortBy le x l).mpr hx⟩
  · rw [List.isEmpty_iff] at h ⊢
    exact (insertionSortBy_eq_nil le l).mpr h

/-- The byte stream of a concatenation of event lists. -/
theorem renderAll_append (l₁ l₂ : List WriteEvent) :
    renderAll (l₁ ++ l₂) = renderAll l₁ ++ renderAll l₂ := by
  induction l₁ with
  | nil => simp [renderAll]
  | cons e t ih => simp [renderAll, ih, String.append_assoc]

/-- The length of the byte stream is the sum of the event lengths. -/
theorem renderAll_length (l : List WriteEvent) :
    (renderAll l).length = (l.map (fun e => (render e).length)).sum := by
  induction l with
  | nil => simp [renderAll]
  | cons e t ih => simp [renderAll, String.length_append, ih]

/-- An event of the stream bounds the stream's byte length from below. -/
theorem render_le_renderAll {e : WriteEvent} {l : List WriteEvent}
    (h : e ∈ l) : (render e).length ≤ (renderAll l).length := by
  rw [renderAll_length]
  exact List.single_le_sum (fun x _ => Nat.zero_le x) _
    (List.mem_map_of_mem (fun e => (render e).length) h)

/-- A string of positive length is not empty. -/
theorem ne_empty_of_length_pos {s : String} (h : 0 < s.length) : s ≠ "" := by
  intro hs
  rw [hs] at h
  exact absurd h (by decide)

/-- The directory-heading write is never empty. -/
theorem render_dirHeading_pos (lvl : Nat) (n : String) :
    0 < (render (.dirHeading lvl n)).length := by
  have h12 : (" Directory: " : String).length = 12 := by decide
  have h2 : ("\n\n" : String).length = 2 := by decide
  simp only [render, String.length_append, h12, h2]
  omega

/-- The error-heading write is never empty. -/
theorem render_errDirHeading_pos (lvl : Nat) :
    0 < (render (.errDirHeading lvl)).length := by
  have h : (" Error Reading Directory\n\n" : String).length = 26 := by decide
  simp only [render, String.length_append, h]
  omega

/-- A flatten of all-empty lists is empty. -/
theorem flatten_eq_nil_of_forall {α : Type} {L : List (List α)}
    (h : ∀ x ∈ L, x = []) : L.flatten = [] := by
  induction L with
  | nil => rfl
  | cons x t ih =>
      rw [List.flatten_cons, h x (List.mem_cons_self x t),
        ih (fun y hy => h y (List.mem_cons_of_mem x hy))]
      rfl

mutual

/-- The returned flag of a call is `false` only when the call wrote no event,
and `true` only when it wrote an event of positive byte length. -/
theorem content_flag_tree : ∀ (t : DirListing) (d : String)
    (rf rfo : List String) (m : FilterMode) (lvl : Nat) (anc : List String),
    ((process_directory t d rf rfo m lvl anc).2 = false →
      (process_directory t d rf rfo m lvl anc).1 = []) ∧
    ((process_directory t d rf rfo m lvl anc).2 = true →
      ∃ e ∈ (process_directory t d rf rfo m lvl anc).1, 0 < (render e).length) :=
  fun t d rf rfo m lvl anc =>
  match t with
  | .err e => by
      by_cases hc : (m == FilterMode.blacklist ||
          m == FilterMode.whitelist && in_whitelisted_scope rfo d anc) = true
      · simp only [process_directory.eq_def]
        rw [if_pos hc]
        exact ⟨fun h => absurd h (by simp),
          fun _ => ⟨.errDirHeading lvl, by simp, render_errDirHeading_pos lvl⟩⟩
      · simp only [process_directory.eq_def]
        rw [if_neg hc]
        exact ⟨fun _ => rfl, fun h => absurd h (by simp)⟩
  | .ok items => by
      have hitems := content_flag_items items d rf rfo m lvl
        (extend_ancestors m rfo d anc)
      simp only [process_directory.eq_def]
      by_cases hw : should_write_header m
          (!(insertionSortBy (fun a b => strLe a.1 b.1)
              (process_items items d rf rfo m lvl
                (extend_ancestors m rfo d anc)).1).isEmpty)
          ((insertionSortBy (fun a b => strLe a.1 b.1)
              (process_items items d rf rfo m lvl
                (extend_ancestors m rfo d anc)).2).any (fun c => c.2.2))
          items.isNil lvl
          (m == FilterMode.whitelist && in_whitelisted_scope rfo d anc) = true
      · rw [if_pos hw]
        refine ⟨fun h => absurd h (by simp), fun _ => ⟨.dirHeading lvl (basename d), ?_, render_dirHeading_pos lvl (basename d)⟩⟩
        simp
      · rw [if_neg hw]
        constructor
        · intro h
          simp only at h
          apply flatten_eq_nil_of_forall
          intro x hx
          obtain ⟨c, hc, hcx⟩ := List.mem_map.mp hx
          have hcm : c ∈ (process_items items d rf rfo m lvl
              (extend_ancestors m rfo d anc)).2 :=
            (mem_insertionSortBy _ c _).mp hc
          have hcf : c.2.2 = false := by
            have := List.any_eq_false.mp h c hc
            simpa using this
          rw [← hcx]
          exact ((hitems c hcm).1) hcf
        · intro h
          simp only at h
          obtain ⟨c, hc, hcf⟩ := List.any_eq_true.mp h
          have hcm : c ∈ (process_items items d rf rfo m lvl
              (extend_ancestors m rfo d anc)).2 :=
            (mem_insertionSortBy _ c _).mp hc
          obtain ⟨e, he, hel⟩ := ((hitems c hcm).2) hcf
          exact ⟨e, List.mem_flatten.mpr ⟨c.2.1,
            List.mem_map_of_mem (fun c => c.2.1) hc, he⟩, hel⟩

/-- Each retained child's recursive result satisfies the same relationship. -/
theorem content_flag_items : ∀ (items : EntryList) (d : String)
    (rf rfo : List String) (m : FilterMode) (lvl : Nat) (anc : List String),
    ∀ p ∈ (process_items items d rf rfo m lvl anc).2,
      ((p.2.2 = false → p.2.1 = []) ∧
       (p.2.2 = true → ∃ e ∈ p.2.1, 0 < (render e).length)) :=
  fun items d rf rfo m lvl anc =>
  match items with
  | .nil => by simp [process_items]
  | .cons e es => by
      have hrest := content_flag_items es d rf rfo m lvl anc
      cases e with
      | file n c =>
          intro p hp
          by_cases hf : should_process_item (pjoin d n) true rf rfo m anc = true <;>
            simp only [process_items, hf, Bool.false_eq_true, if_true, if_false] at hp <;>
            exact hrest p hp
      | dir n sub =>
          intro p hp
          by_cases hd : (should_process_item (pjoin d n) false rf rfo m anc ||
              m == FilterMode.whitelist &&
                can_contain_whitelisted (pjoin d n) rf rfo) = true
          · simp only [process_items, hd, if_true] at hp
            rcases List.mem_cons.mp hp with hpeq | hpm
            · subst hpeq
              exact content_flag_tree sub (pjoin d n) rf rfo m (lvl + 1)
                (extend_ancestors m rfo (pjoin d n) anc)
            · exact hrest p hpm
          · simp only [process_items, hd, Bool.false_eq_true, if_false] at hp
            exact hrest p hp

end

/-- C8: the boolean returned by every call of `process_directory` is `true`
exactly when that call or some descendant call wrote at least one character
to the output sink for this subtree. -/
theorem returns_true_iff_wrote (t : DirListing) (d : String)
    (rf rfo : List String) (m : FilterMode) (lvl : Nat) (anc : List String) :
    (process_directory t d rf rfo m lvl anc).2 = true ↔
      renderAll (process_directory t d rf rfo m lvl anc).1 ≠ "" := by
  have h := content_flag_tree t d rf rfo m lvl anc
  constructor
  · intro ht
    obtain ⟨e, he, hel⟩ := h.2 ht
    exact ne_empty_of_length_pos (Nat.lt_of_lt_of_le hel (render_le_renderAll he))
  · intro hne
    by_contra hf
    have hfalse : (process_directory t d rf rfo m lvl anc).2 = false := by
      simpa using hf
    rw [h.1 hfalse] at hne
    exact hne rfl

/-- Level bounds weaken downwards. -/
theorem event_level_ge_mono {lvl lvl' : Nat} (h : lvl ≤ lvl') {e : WriteEvent}
    (he : event_level_ge lvl' e) : event_level_ge lvl e := by
  cases e <;> simp only [event_level_ge] at he ⊢ <;> omega

/-- Every event of the files section carries the directory's own level. -/
theorem levels_files_section (m : FilterMode) (lvl : Nat)
    (fs : List (String × Except String String)) (iE nc s : Bool) :
    ∀ e ∈ files_section m lvl fs iE nc s, event_level_ge lvl e := by
  intro e he
  rw [files_section] at he
  by_cases hf : (!fs.isEmpty) = true
  · rw [if_pos hf] at he
    rcases List.mem_cons.mp he with h | h
    · subst h
      simp [event_level_ge]
    · obtain ⟨x, hx, hex⟩ := List.mem_flatten.mp h
      obtain ⟨p, _, hpx⟩ := List.mem_map.mp hx
      rw [← hpx] at hex
      rcases p with ⟨n, c | c⟩ <;>
        simp only [file_block, List.mem_cons, List.not_mem_nil, or_false] at hex
      · rcases hex with h | h <;> subst h <;> simp [event_level_ge]
      · rcases hex with h | h | h | h <;> subst h <;> simp [event_level_ge]
  · rw [if_neg hf] at he
    by_cases hie : (iE && nc) = true
    · rw [if_pos hie] at he
      by_cases hm : (m == FilterMode.blacklist ||
          m == FilterMode.whitelist && s) = true
      · rw [if_pos hm] at he
        rcases List.mem_singleton.mp he with h
        subst h
        simp [event_level_ge]
      · rw [if_neg hm] at he
        cases he
    · rw [if_neg hie] at he
      cases he

mutual

/-- Every event a call at depth `lvl` writes carries a heading level of at
least `lvl`. -/
theorem levels_tree : ∀ (t : DirListing) (d : String) (rf rfo : List String)
    (m : FilterMode) (lvl : Nat) (anc : List String),
    ∀ e ∈ (process_directory t d rf rfo m lvl anc).1, event_level_ge lvl e :=
  fun t d rf rfo m lvl anc =>
  match t with
  | .err msg => by
      intro e he
      by_cases hc : (m == FilterMode.blacklist ||
          m == FilterMode.whitelist && in_whitelisted_scope rfo d anc) = true
      · simp only [process_directory.eq_def] at he
        rw [if_pos hc] at he
        simp only [List.mem_cons, List.not_mem_nil, or_false] at he
        rcases he with h | h | h <;> subst h <;> simp [event_level_ge]
      · simp only [process_directory.eq_def] at he
        rw [if_neg hc] at he
        cases he
  | .ok items => by
      intro e he
      have hitems := levels_items items d rf rfo m lvl
        (extend_ancestors m rfo d anc)
      simp only [process_directory.eq_def] at he
      by_cases hw : should_write_header m
          (!(insertionSortBy (fun a b => strLe a.1 b.1)
              (process_items items d rf rfo m lvl
                (extend_ancestors m rfo d anc)).1).isEmpty)
          ((insertionSortBy (fun a b => strLe a.1 b.1)
              (process_items items d rf rfo m lvl
                (extend_ancestors m rfo d anc)).2).any (fun c => c.2.2))
          items.isNil lvl
          (m == FilterMode.whitelist && in_whitelisted_scope rfo d anc) = true
      · rw [if_pos hw] at he
        simp only at he
        rcases List.mem_append.mp he with h | h
        · rcases List.mem_append.mp h with h | h
          · obtain ⟨x, hx, hex⟩ := List.mem_flatten.mp h
            obtain ⟨c, hc, hcx⟩ := List.mem_map.mp hx
            have hcm := (mem_insertionSortBy _ c _).mp hc
            rw [← hcx] at hex
            exact event_level_ge_mono (Nat.le_succ lvl) (hitems c hcm e hex)
          · simp only [List.mem_cons, List.not_mem_nil, or_false] at h
            rcases h with h | h <;> subst h <;> simp [event_level_ge]
        · exact levels_files_section m lvl _ _ _ _ e h
      · rw [if_neg hw] at he
        simp only at he
        obtain ⟨x, hx, hex⟩ := List.mem_flatten.mp he
        obtain ⟨c, hc, hcx⟩ := List.mem_map.mp hx
        have hcm := (mem_insertionSortBy _ c _).mp hc
        rw [← hcx] at hex
        exact event_level_ge_mono (Nat.le_succ lvl) (hitems c hcm e hex)

/-- Every event of a retained child's result carries level at least
`lvl + 1`. -/
theorem levels_items : ∀ (items : EntryList) (d : String)
    (rf rfo : List String) (m : FilterMode) (lvl : Nat) (anc : List String),
    ∀ p ∈ (process_items items d rf rfo m lvl anc).2,
      ∀ e ∈ p.2.1, event_level_ge (lvl + 1) e :=
  fun items d rf rfo m lvl anc =>
  match items with
  | .nil => by simp [process_items]
  | .cons e es => by
      have hrest := levels_items es d rf rfo m lvl anc
      cases e with
      | file n c =>
          intro p hp
          by_cases hf : should_process_item (pjoin d n) true rf rfo m anc = true <;>
            simp only [process_items, hf, Bool.false_eq_true, if_true, if_false] at hp <;>
            exact hrest p hp
      | dir n sub =>
          intro p hp
          by_cases hd : (should_process_item (pjoin d n) false rf rfo m anc ||
              m == FilterMode.whitelist &&
                can_contain_whitelisted (pjoin d n) rf rfo) = true
          · simp only [process_items, hd, if_true] at hp
            rcases List.mem_cons.mp hp with hpeq | hpm
            · subst hpeq
              exact levels_tree sub (pjoin d n) rf rfo m (lvl + 1)
                (extend_ancestors m rfo (pjoin d n) anc)
            · exact hrest p hpm
          · simp only [process_items, hd, Bool.false_eq_true, if_false] at hp
            exact hrest p hp

end

/-- The blacklist heading decision, componentwise. -/
theorem should_write_header_blacklist_iff (f c iE s : Bool) (lvl : Nat) :
    should_write_header .blacklist f c iE lvl s = true ↔
      (f = true ∨ c = true ∨ (iE = true ∧ lvl = 0)) := by
  cases f <;> cases c <;> cases iE <;> simp [should_write_header]

/-- The whitelist heading decision, componentwise. -/
theorem should_write_header_whitelist_iff (f c iE s : Bool) (lvl : Nat) :
    should_write_header .whitelist f c iE lvl s = true ↔
      ((s = true ∧ (f = true ∨ c = true ∨ iE = true)) ∨ f = true ∨ c = true) := by
  cases f <;> cases c <;> cases iE <;> cases s <;> simp [should_write_header]

/-- C5 counterexample: in Blacklist mode a scan root that has entries but
whose single file is excluded by a file rule emits no heading at all — the
walk writes nothing — while the claim's count (directories with emitted
content, plus one for the root even if empty) predicts one heading. -/
theorem blacklist_heading_count_counterexample :
    countDirHeadings (process_directory
        (.ok (.cons (.file "a.txt" (.ok "hello")) .nil)) "/r"
        ["/r/a.txt"] [] .blacklist 0 []).1 = 0 ∧
    (process_directory (.ok (.cons (.file "a.txt" (.ok "hello")) .nil)) "/r"
        ["/r/a.txt"] [] .blacklist 0 []).1 = [] := by decide

/-- C5 amended: in Blacklist mode a call on a readable directory emits its
own heading exactly when it has files to output, or some retained child
subtree produced content, or it is the scan root (depth 0) and the directory
has zero entries; the root therefore contributes a heading only when it is
completely empty or itself has content, not unconditionally. -/
theorem blacklist_heading_iff (items : EntryList) (d : String)
    (rf rfo : List String) (lvl : Nat) (anc : List String) :
    WriteEvent.dirHeading lvl (basename d) ∈
        (process_directory (.ok items) d rf rfo .blacklist lvl anc).1 ↔
      ((process_items items d rf rfo .blacklist lvl anc).1 ≠ [] ∨
       (∃ p ∈ (process_items items d rf rfo .blacklist lvl anc).2, p.2.2 = true) ∨
       (items.isNil = true ∧ lvl = 0)) := by
  have hext : extend_ancestors .blacklist rfo d anc = anc := rfl
  simp only [process_directory.eq_def, hext]
  by_cases hw : should_write_header .blacklist
      (!(insertionSortBy (fun a b => strLe a.1 b.1)
          (process_items items d rf rfo .blacklist lvl anc).1).isEmpty)
      ((insertionSortBy (fun a b => strLe a.1 b.1)
          (process_items items d rf rfo .blacklist lvl anc).2).any (fun c => c.2.2))
      items.isNil lvl
      (FilterMode.blacklist == FilterMode.whitelist &&
        in_whitelisted_scope rfo d anc) = true
  · rw [if_pos hw]
    refine ⟨fun _ => ?_, fun _ => by simp⟩
    rcases (should_write_header_blacklist_iff _ _ _ _ _).mp hw with hf | hc | hie
    · rw [Bool.not_eq_eq_eq_not, Bool.not_true, isEmpty_insertionSortBy] at hf
      refine Or.inl (fun hnil => ?_)
      rw [hnil] at hf
      exact absurd hf (by decide)
    · rw [any_insertionSortBy] at hc
      exact Or.inr (Or.inl (List.any_eq_true.mp hc))
    · exact Or.inr (Or.inr hie)
  · rw [if_neg hw]
    constructor
    · intro hmem
      exfalso
      simp only at hmem
      obtain ⟨x, hx, hex⟩ := List.mem_flatten.mp hmem
      obtain ⟨c, hc, hcx⟩ := List.mem_map.mp hx
      have hcm := (mem_insertionSortBy _ c _).mp hc
      rw [← hcx] at hex
      have := levels_items items d rf rfo .blacklist lvl anc c hcm _ hex
      simp only [event_level_ge] at this
      omega
    · intro hrhs
      exfalso
      apply hw
      rw [should_write_header_blacklist_iff]
      rcases hrhs with hf | hc | hie
      · refine Or.inl ?_
        rw [Bool.not_eq_eq_eq_not, Bool.not_true, isEmpty_insertionSortBy]
        rcases h : (process_items items d rf rfo .blacklist lvl anc).1 with _ | ⟨a, t⟩
        · exact absurd h hf
        · simp
      · refine Or.inr (Or.inl ?_)
        rw [any_insertionSortBy]
        exact List.any_eq_true.mpr hc
      · exact Or.inr (Or.inr hie)

/-- C4: in Whitelist mode a call on a readable directory emits its own
heading exactly when (the directory is in scope in the claim's sense — it
equals or lies under a whitelisted ancestor, or is itself a folder rule —
and it has files to output, or a retained child produced content, or it has
zero entries) or it has files to output or a retained child produced
content; a directory meeting none of these writes nothing of its own — its
output is exactly the concatenation of the sorted children's output — and
returns whether some child produced content.  The hypothesis is the
data-model invariant that every accumulated whitelisted ancestor is a folder
rule, which both the seeding call sites and `extend_ancestors` maintain. -/
theorem whitelist_heading_iff (items : EntryList) (d : String)
    (rf rfo : List String) (lvl : Nat) (anc : List String)
    (hanc : ∀ a ∈ anc, a ∈ rfo) :
    (WriteEvent.dirHeading lvl (basename d) ∈
        (process_directory (.ok items) d rf rfo .whitelist lvl anc).1 ↔
      ((((∃ wf ∈ anc, d = wf ∨ strStartsWith d (wf ++ osSep) = true) ∨ d ∈ rfo) ∧
        ((process_items items d rf rfo .whitelist lvl
            (extend_ancestors .whitelist rfo d anc)).1 ≠ [] ∨
         (∃ p ∈ (process_items items d rf rfo .whitelist lvl
            (extend_ancestors .whitelist rfo d anc)).2, p.2.2 = true) ∨
         items.isNil = true)) ∨
       (process_items items d rf rfo .whitelist lvl
          (extend_ancestors .whitelist rfo d anc)).1 ≠ [] ∨
       (∃ p ∈ (process_items items d rf rfo .whitelist lvl
          (extend_ancestors .whitelist rfo d anc)).2, p.2.2 = true))) ∧
    (WriteEvent.dirHeading lvl (basename d) ∉
        (process_directory (.ok items) d rf rfo .whitelist lvl anc).1 →
      (process_directory (.ok items) d rf rfo .whitelist lvl anc).1 =
        ((insertionSortBy (fun a b => strLe a.1 b.1)
            (process_items items d rf rfo .whitelist lvl
              (extend_ancestors .whitelist rfo d anc)).2).map
          (fun c => c.2.1)).flatten ∧
      (process_directory (.ok items) d rf rfo .whitelist lvl anc).2 =
        (process_items items d rf rfo .whitelist lvl
          (extend_ancestors .whitelist rfo d anc)).2.any (fun c => c.2.2)) := by
  have hbeq : (FilterMode.whitelist == FilterMode.whitelist) = true := rfl
  have hscope : (FilterMode.whitelist == FilterMode.whitelist &&
      in_whitelisted_scope rfo d anc) = true ↔
      ((∃ wf ∈ anc, d = wf ∨ strStartsWith d (wf ++ osSep) = true) ∨ d ∈ rfo) := by
    rw [hbeq, Bool.true_and, in_whitelisted_scope_iff]
    constructor
    · rintro (h | ⟨wf, hm, hn⟩)
      · exact Or.inr h
      · exact Or.inl ⟨wf, hm, Or.inr hn⟩
    · rintro (⟨wf, hm, heq | hn⟩ | h)
      · exact Or.inl (heq ▸ hanc wf hm)
      · exact Or.inr ⟨wf, hm, hn⟩
      · exact Or.inl h
  have hfiles : (!(insertionSortBy (fun a b => strLe a.1 b.1)
      (process_items items d rf rfo .whitelist lvl
        (extend_ancestors .whitelist rfo d anc)).1).isEmpty) = true ↔
      (process_items items d rf rfo .whitelist lvl
        (extend_ancestors .whitelist rfo d anc)).1 ≠ [] := by
    rw [Bool.not_eq_eq_eq_not, Bool.not_true, isEmpty_insertionSortBy]
    constructor
    · intro h hnil
      rw [hnil] at h
      exact absurd h (by decide)
    · intro h
      rcases hx : (process_items items d rf rfo .whitelist lvl
          (extend_ancestors .whitelist rfo d anc)).1 with _ | ⟨a, t⟩
      · exact absurd hx h
      · simp
  have hchild : ((insertionSortBy (fun a b => strLe a.1 b.1)
      (process_items items d rf rfo .whitelist lvl
        (extend_ancestors .whitelist rfo d anc)).2).any (fun c => c.2.2)) = true ↔
      (∃ p ∈ (process_items items d rf rfo .whitelist lvl
        (extend_ancestors .whitelist rfo d anc)).2, p.2.2 = true) := by
    rw [any_insertionSortBy]
    exact List.any_eq_true
  simp only [process_directory.eq_def]
  by_cases hw : should_write_header .whitelist
      (!(insertionSortBy (fun a b => strLe a.1 b.1)
          (process_items items d rf rfo .whitelist lvl
            (extend_ancestors .whitelist rfo d anc)).1).isEmpty)
      ((insertionSortBy (fun a b => strLe a.1 b.1)
          (process_items items d rf rfo .whitelist lvl
            (extend_ancestors .whitelist rfo d anc)).2).any (fun c => c.2.2))
      items.isNil lvl
      (FilterMode.whitelist == FilterMode.whitelist &&
        in_whitelisted_scope rfo d anc) = true
  · rw [if_pos hw]
    have hmem : WriteEvent.dirHeading lvl (basename d) ∈
        ((insertionSortBy (fun a b => strLe a.1 b.1)
            (process_items items d rf rfo .whitelist lvl
              (extend_ancestors .whitelist rfo d anc)).2).map
          (fun c => c.2.1)).flatten ++
        [WriteEvent.dirHeading lvl (basename d), WriteEvent.pathLine d] ++
        files_section .whitelist lvl
          (insertionSortBy (fun a b => strLe a.1 b.1)
            (process_items items d rf rfo .whitelist lvl
              (extend_ancestors .whitelist rfo d anc)).1)
          items.isNil
          (!(insertionSortBy (fun a b => strLe a.1 b.1)
              (process_items items d rf rfo .whitelist lvl
                (extend_ancestors .whitelist rfo d anc)).2).any (fun c => c.2.2))
          (FilterMode.whitelist == FilterMode.whitelist &&
            in_whitelisted_scope rfo d anc) := by simp
    refine ⟨⟨fun _ => ?_, fun _ => hmem⟩, fun hno => absurd hmem hno⟩
    rcases (should_write_header_whitelist_iff _ _ _ _ _).mp hw with ⟨hs, hrest⟩ | hf | hc
    · refine Or.inl ⟨hscope.mp hs, ?_⟩
      rcases hrest with hf | hc | hie
      · exact Or.inl (hfiles.mp hf)
      · exact Or.inr (Or.inl (hchild.mp hc))
      · exact Or.inr (Or.inr hie)
    · exact Or.inr (Or.inl (hfiles.mp hf))
    · exact Or.inr (Or.inr (hchild.mp hc))
  · rw [if_neg hw]
    have hnomem : WriteEvent.dirHeading lvl (basename d) ∉
        (((insertionSortBy (fun a b => strLe a.1 b.1)
            (process_items items d rf rfo .whitelist lvl
              (extend_ancestors .whitelist rfo d anc)).2).map
          (fun c => c.2.1)).flatten,
          (insertionSortBy (fun a b => strLe a.1 b.1)
            (process_items items d rf rfo .whitelist lvl
              (extend_ancestors .whitelist rfo d anc)).2).any (fun c => c.2.2)).1 := by
      intro hmem
      simp only at hmem
      obtain ⟨x, hx, hex⟩ := List.mem_flatten.mp hmem
      obtain ⟨c, hc, hcx⟩ := List.mem_map.mp hx
      have hcm := (mem_insertionSortBy _ c _).mp hc
      rw [← hcx] at hex
      have := levels_items items d rf rfo .whitelist lvl
        (extend_ancestors .whitelist rfo d anc) c hcm _ hex
      simp only [event_level_ge] at this
      omega
    refine ⟨⟨fun hmem => absurd hmem hnomem, fun hrhs => ?_⟩,
      fun _ => ⟨rfl, ?_⟩⟩
    · exfalso
      apply hw
      rw [should_write_header_whitelist_iff]
      rcases hrhs with ⟨hs, hrest⟩ | hf | hc
      · refine Or.inl ⟨hscope.mpr hs, ?_⟩
        rcases hrest with hf | hc | hie
        · exact Or.inl (hfiles.mpr hf)
        · exact Or.inr (Or.inl (hchild.mpr hc))
        · exact Or.inr (Or.inr hie)
      · exact Or.inr (Or.inl (hfiles.mpr hf))
      · exact Or.inr (Or.inr (hchild.mpr hc))
    · simp only
      rw [any_insertionSortBy]

/-- C4 witness: an empty directory that is itself a folder rule, at depth 0
with no accumulated ancestors, receives its own heading. -/
theorem whitelist_heading_witness :
    WriteEvent.dirHeading 0 (basename "/r") ∈
      (process_directory (.ok .nil) "/r" [] ["/r"] .whitelist 0 []).1 :=
  (whitelist_heading_iff .nil "/r" [] ["/r"] 0 [] (by simp)).1.mpr
    (Or.inl ⟨Or.inr (by decide), Or.inr (Or.inr rfl)⟩)

/-- Characters with equal code points are equal. -/
theorem char_toNat_inj {a b : Char} (h : a.toNat = b.toNat) : a = b :=
  Char.ext (UInt32.ext h)

/-- The code-point comparison is total. -/
theorem chListLe_total : ∀ (a b : List Char),
    chListLe a b = true ∨ chListLe b a = true
  | [], _ => Or.inl rfl
  | _ :: _, [] => Or.inr rfl
  | x :: xs, y :: ys => by
      simp only [chListLe]
      rcases Nat.lt_trichotomy x.toNat y.toNat with h | h | h
      · left
        rw [if_pos h]
      · rcases chListLe_total xs ys with ht | ht
        · left
          rw [if_neg (by omega), if_neg (by omega)]
          exact ht
        · right
          rw [if_neg (by omega), if_neg (by omega)]
          exact ht
      · right
        rw [if_pos h]

/-- The code-point comparison is transitive. -/
theorem chListLe_trans : ∀ (a b c : List Char), chListLe a b = true →
    chListLe b c = true → chListLe a c = true
  | [], _, _, _, _ => rfl
  | _ :: _, [], _, hab, _ => by simp [chListLe] at hab
  | _ :: _, _ :: _, [], _, hbc => by simp [chListLe] at hbc
  | x :: xs, y :: ys, z :: zs, hab, hbc => by
      simp only [chListLe] at hab hbc ⊢
      rcases Nat.lt_trichotomy x.toNat y.toNat with h1 | h1 | h1
      · rcases Nat.lt_trichotomy y.toNat z.toNat with h2 | h2 | h2
        · rw [if_pos (by omega)]
        · rw [if_pos (by omega)]
        · rw [if_neg (by omega), if_pos (by omega)] at hbc
          cases hbc
      · rw [if_neg (by omega), if_neg (by omega)] at hab
        rcases Nat.lt_trichotomy y.toNat z.toNat with h2 | h2 | h2
        · rw [if_pos (by omega)]
        · rw [if_neg (by omega), if_neg (by omega)] at hbc
          rw [if_neg (by omega), if_neg (by omega)]
          exact chListLe_trans xs ys zs hab hbc
        · rw [if_neg (by omega), if_pos (by omega)] at hbc
          cases hbc
      · rw [if_neg (by omega), if_pos (by omega)] at hab
        cases hab

/-- The code-point comparison is antisymmetric. -/
theorem chListLe_antisymm : ∀ (a b : List Char), chListLe a b = true →
    chListLe b a = true → a = b
  | [], [], _, _ => rfl
  | [], _ :: _, _, hba => by simp [chListLe] at hba
  | _ :: _, [], hab, _ => by simp [chListLe] at hab
  | x :: xs, y :: ys, hab, hba => by
      simp only [chListLe] at hab hba
      rcases Nat.lt_trichotomy x.toNat y.toNat with h1 | h1 | h1
      · rw [if_neg (by omega), if_pos (by omega)] at hba
        cases hba
      · rw [if_neg (by omega), if_neg (by omega)] at hab hba
        rw [char_toNat_inj h1, chListLe_antisymm xs ys hab hba]
      · rw [if_neg (by omega), if_pos (by omega)] at hab
        cases hab

/-- `strLe` is total. -/
theorem strLe_total (a b : String) : strLe a b = true ∨ strLe b a = true :=
  chListLe_total a.data b.data

/-- `strLe` is transitive. -/
theorem strLe_trans {a b c : String} (hab : strLe a b = true)
    (hbc : strLe b c = true) : strLe a c = true :=
  chListLe_trans a.data b.data c.data hab hbc

/-- `strLe` is antisymmetric. -/
theorem strLe_antisymm {a b : String} (hab : strLe a b = true)
    (hba : strLe b a = true) : a = b :=
  String.ext (chListLe_antisymm a.data b.data hab hba)

/-- Ordered insertion preserves sortedness, for a total transitive
comparison. -/
theorem pairwise_orderedInsertBy {α : Type} (le : α → α → Bool)
    (htot : ∀ a b, le a b = true ∨ le b a = true)
    (htr : ∀ a b c, le a b = true → le b c = true → le a c = true)
    (a : α) (l : List α) (h : List.Pairwise (fun x y => le x y = true) l) :
    List.Pairwise (fun x y => le x y = true) (orderedInsertBy le a l) := by
  induction l with
  | nil => simp [orderedInsertBy]
  | cons b t ih =>
      rcases List.pairwise_cons.mp h with ⟨hbt, hts⟩
      by_cases hab : le a b = true
      · rw [orderedInsertBy, if_pos hab]
        refine List.pairwise_cons.mpr ⟨?_, h⟩
        intro x hx
        rcases List.mem_cons.mp hx with hxb | hxt
        · rw [hxb]
          exact hab
        · exact htr a b x hab (hbt x hxt)
      · rw [orderedInsertBy, if_neg hab]
        refine List.pairwise_cons.mpr ⟨?_, ih hts⟩
        intro x hx
        rcases (mem_orderedInsertBy le a x t).mp hx with hxa | hxt
        · rw [hxa]
          rcases htot a b with hh | hh
          · exact absurd hh hab
          · exact hh
        · exact hbt x hxt

/-- The insertion sort is sorted, for a total transitive comparison. -/
theorem pairwise_insertionSortBy {α : Type} (le : α → α → Bool)
    (htot : ∀ a b, le a b = true ∨ le b a = true)
    (htr : ∀ a b c, le a b = true → le b c = true → le a c = true)
    (l : List α) :
    List.Pairwise (fun x y => le x y = true) (insertionSortBy le l) := by
  induction l with
  | nil => simp [insertionSortBy]
  | cons a t ih => exact pairwise_orderedInsertBy le htot htr a _ ih

/-- Two sorted permutations of each other with duplicate-free keys are
equal: the uniqueness of a sorted listing keyed by names. -/
theorem sorted_perm_eq_of_nodup_keys {α : Type} (k : α → String) :
    ∀ (l₁ l₂ : List α), l₁.Perm l₂ →
    List.Pairwise (fun x y => strLe (k x) (k y) = true) l₁ →
    List.Pairwise (fun x y => strLe (k x) (k y) = true) l₂ →
    (l₁.map k).Nodup → l₁ = l₂
  | [], l₂, hp, _, _, _ => hp.nil_eq
  | x :: t₁, [], hp, _, _, _ => by
      have := hp.length_eq
      simp at this
  | x :: t₁, y :: t₂, hp, hs₁, hs₂, hn => by
      rcases List.pairwise_cons.mp hs₁ with ⟨hxt, hts₁⟩
      rcases List.pairwise_cons.mp hs₂ with ⟨hyt, hts₂⟩
      have hxy : x = y := by
        have hxmem : x ∈ y :: t₂ := hp.subset (List.mem_cons_self x t₁)
        rcases List.mem_cons.mp hxmem with h | hxint₂
        · exact h
        · have hymem : y ∈ x :: t₁ := hp.symm.subset (List.mem_cons_self y t₂)
          rcases List.mem_cons.mp hymem with h | hyint₁
          · exact h.symm
          · exfalso
            have h₁ : strLe (k x) (k y) = true := hxt y hyint₁
            have h₂ : strLe (k y) (k x) = true := hyt x hxint₂
            have hk : k x = k y := strLe_antisymm h₁ h₂
            rcases List.nodup_cons.mp hn with ⟨hknot, _⟩
            exact hknot (hk ▸ List.mem_map_of_mem k hyint₁)
      subst hxy
      rw [sorted_perm_eq_of_nodup_keys k t₁ t₂ hp.cons_inv hts₁ hts₂
        (List.nodup_cons.mp hn).2]

/-- Canonicalisation acts entrywise before sorting. -/
theorem canonEntries_cons (e : Entry) (es : EntryList) :
    canonEntries (.cons e es) = canonEntry e :: canonEntries es := by
  cases e <;> rfl

/-- Canonicalisation keeps every entry's name. -/
theorem entryName_canonEntry (e : Entry) : entryName (canonEntry e) = entryName e := by
  cases e <;> rfl

/-- The names of the canonicalised entries are the original names. -/
theorem map_entryName_canonEntries (l : EntryList) :
    (canonEntries l).map entryName = entryNames l := by
  induction l using EntryList.induct with
  | nil => rfl
  | cons e es ih =>
      rw [canonEntries_cons, entryNames, List.map_cons, entryName_canonEntry, ih]


/-- A shuffle permutes the entry names and preserves the well-formedness of
the hanging subtrees. -/
theorem entriesShuffle_preserve {l₁ l₂ : EntryList} (h : EntriesShuffle l₁ l₂) :
    (entryNames l₁).Perm (entryNames l₂) ∧ nodupEntries l₁ = nodupEntries l₂ := by
  induction h with
  | nil => exact ⟨.refl _, rfl⟩
  | consFile n c ht ih =>
      exact ⟨ih.1.cons n, by simp only [nodupEntries]; exact ih.2⟩
  | consDirErr n e ht ih =>
      refine ⟨ih.1.cons n, ?_⟩
      simp only [nodupEntries, nodupNames]
      rw [ih.2]
  | consDirOk n hs ht ihs iht =>
      refine ⟨iht.1.cons n, ?_⟩
      simp only [nodupEntries, nodupNames]
      rw [iht.2, decide_eq_decide.mpr ihs.1.nodup_iff, ihs.2]
  | swap a b t =>
      refine ⟨List.Perm.swap (entryName b) (entryName a) (entryNames t), ?_⟩
      cases a with
      | file n c =>
          cases b with
          | file m c' => rfl
          | dir m s => rfl
      | dir n s =>
          cases b with
          | file m c' => rfl
          | dir m s' =>
              simp only [nodupEntries]
              rw [← Bool.and_assoc, ← Bool.and_assoc,
                Bool.and_comm (nodupNames s) (nodupNames s')]
  | trans h₁ h₂ ih₁ ih₂ => exact ⟨ih₁.1.trans ih₂.1, ih₁.2.trans ih₂.2⟩

/-- Shuffled well-formed entry lists have permuted canonical entries; the
subtree listings of related directory entries canonicalise identically. -/
theorem canonEntries_perm_of_shuffle {l₁ l₂ : EntryList}
    (h : EntriesShuffle l₁ l₂) :
    nodupEntries l₁ = true → (canonEntries l₁).Perm (canonEntries l₂) := by
  induction h with
  | nil => exact fun _ => .refl _
  | consFile n c ht ih =>
      intro hn
      simp only [nodupEntries] at hn
      simp only [canonEntries]
      exact (ih hn).cons _
  | consDirErr n e ht ih =>
      intro hn
      simp only [nodupEntries, nodupNames, Bool.true_and] at hn
      simp only [canonEntries, canonListing]
      exact (ih hn).cons _
  | @consDirOk n s₁ s₂ t₁ t₂ hs ht ihs iht =>
      intro hn
      simp only [nodupEntries, nodupNames, Bool.and_eq_true,
        decide_eq_true_eq] at hn
      obtain ⟨⟨hnn, hne⟩, hnt⟩ := hn
      have hperm := ihs hne
      have hXY : insertionSortBy entryLe (canonEntries s₁) =
          insertionSortBy entryLe (canonEntries s₂) := by
        apply sorted_perm_eq_of_nodup_keys entryName
        · exact (insertionSortBy_perm entryLe _).trans
            (hperm.trans (insertionSortBy_perm entryLe _).symm)
        · exact pairwise_insertionSortBy entryLe (fun a b => strLe_total _ _)
            (fun a b c hab hbc => strLe_trans hab hbc) _
        · exact pairwise_insertionSortBy entryLe (fun a b => strLe_total _ _)
            (fun a b c hab hbc => strLe_trans hab hbc) _
        · rw [((insertionSortBy_perm entryLe (canonEntries s₁)).map
            entryName).nodup_iff, map_entryName_canonEntries]
          exact hnn
      simp only [canonEntries, canonListing]
      rw [hXY]
      exact (iht hnt).cons _
  | swap a b t =>
      intro _
      rw [canonEntries_cons, canonEntries_cons, canonEntries_cons,
        canonEntries_cons]
      exact List.Perm.swap (canonEntry b) (canonEntry a) (canonEntries t)
  | @trans la lb lc h₁ h₂ ih₁ ih₂ =>
      intro hn
      have hn₂ : nodupEntries lb = true := by
        rw [← (entriesShuffle_preserve h₁).2]
        exact hn
      exact (ih₁ hn).trans (ih₂ hn₂)

/-- A shuffle preserves duplicate-freedom of names. -/
theorem listingShuffle_nodup_eq {t₁ t₂ : DirListing}
    (h : ListingShuffle t₁ t₂) : nodupNames t₁ = nodupNames t₂ := by
  cases t₁ <;> cases t₂ <;> simp only [ListingShuffle] at h
  · rfl
  · obtain ⟨hp, hnd⟩ := entriesShuffle_preserve h
    simp only [nodupNames]
    rw [hnd, decide_eq_decide.mpr hp.nodup_iff]

/-- Shuffled well-formed listings have the same canonical form. -/
theorem canon_eq_of_shuffle {t₁ t₂ : DirListing} (h : ListingShuffle t₁ t₂)
    (hn : nodupNames t₁ = true) : canonListing t₁ = canonListing t₂ := by
  cases t₁ <;> cases t₂ <;> simp only [ListingShuffle] at h
  · rw [canonListing, canonListing, h]
  · rename_i la lb
    simp only [nodupNames, Bool.and_eq_true, decide_eq_true_eq] at hn
    obtain ⟨hnn, hne⟩ := hn
    have hperm := canonEntries_perm_of_shuffle h hne
    have hXY : insertionSortBy entryLe (canonEntries la) =
        insertionSortBy entryLe (canonEntries lb) := by
      apply sorted_perm_eq_of_nodup_keys entryName
      · exact (insertionSortBy_perm entryLe _).trans
          (hperm.trans (insertionSortBy_perm entryLe _).symm)
      · exact pairwise_insertionSortBy entryLe (fun a b => strLe_total _ _)
          (fun a b c hab hbc => strLe_trans hab hbc) _
      · exact pairwise_insertionSortBy entryLe (fun a b => strLe_total _ _)
          (fun a b c hab hbc => strLe_trans hab hbc) _
      · rw [((insertionSortBy_perm entryLe (canonEntries la)).map
          entryName).nodup_iff, map_entryName_canonEntries]
        exact hnn
    simp only [canonListing]
    rw [hXY]

/-- Building an entry list distributes over cons. -/
theorem ofList_cons (e : Entry) (L : List Entry) :
    ofList (e :: L) = .cons e (ofList L) := rfl

/-- One step of the categorisation loop, as a decomposition: each entry
contributes its (possibly empty) file part and child-result part in front of
the rest. -/
theorem process_items_cons_decomp (e : Entry) (es : EntryList) (d : String)
    (rf rfo : List String) (m : FilterMode) (lvl : Nat) (anc : List String) :
    process_items (.cons e es) d rf rfo m lvl anc =
      ((match e with
        | .file n c =>
            if should_process_item (pjoin d n) true rf rfo m anc then [(n, c)]
            else []
        | .dir _ _ => []) ++ (process_items es d rf rfo m lvl anc).1,
       (match e with
        | .file _ _ => []
        | .dir n sub =>
            if should_process_item (pjoin d n) false rf rfo m anc ||
                (m == .whitelist && can_contain_whitelisted (pjoin d n) rf rfo) then
              [(n, process_directory sub (pjoin d n) rf rfo m (lvl + 1)
                (extend_ancestors m rfo (pjoin d n) anc))]
            else []) ++ (process_items es d rf rfo m lvl anc).2) := by
  cases e with
  | file n c =>
      by_cases hc : should_process_item (pjoin d n) true rf rfo m anc = true <;>
        simp [process_items, hc]
  | dir n sub =>
      by_cases hc : (should_process_item (pjoin d n) false rf rfo m anc ||
          (m == .whitelist && can_contain_whitelisted (pjoin d n) rf rfo)) = true <;>
        simp [process_items, hc]

/-- Permuting the entries permutes the two result lists of the
categorisation loop accordingly (each entry's contribution is independent of
its position). -/
theorem process_items_perm {L₁ L₂ : List Entry} (hp : L₁.Perm L₂)
    (d : String) (rf rfo : List String) (m : FilterMode) (lvl : Nat)
    (anc : List String) :
    (process_items (ofList L₁) d rf rfo m lvl anc).1.Perm
      (process_items (ofList L₂) d rf rfo m lvl anc).1 ∧
    (process_items (ofList L₁) d rf rfo m lvl anc).2.Perm
      (process_items (ofList L₂) d rf rfo m lvl anc).2 := by
  induction hp with
  | nil => exact ⟨.refl _, .refl _⟩
  | cons x h ih =>
      simp only [ofList_cons, process_items_cons_decomp]
      exact ⟨ih.1.append_left _, ih.2.append_left _⟩
  | swap x y l =>
      simp only [ofList_cons, process_items_cons_decomp]
      constructor
      · rw [← List.append_assoc, ← List.append_assoc]
        exact List.perm_append_comm.append_right _
      · rw [← List.append_assoc, ← List.append_assoc]
        exact List.perm_append_comm.append_right _
  | trans h₁ h₂ ih₁ ih₂ => exact ⟨ih₁.1.trans ih₂.1, ih₁.2.trans ih₂.2⟩

/-- The names of the retained files and of the retained directories are each
sublists of the listing's names; with duplicate-free entry names they are
duplicate-free. -/
theorem process_items_keys_sublist (items : EntryList) (d : String)
    (rf rfo : List String) (m : FilterMode) (lvl : Nat) (anc : List String) :
    ((process_items items d rf rfo m lvl anc).1.map Prod.fst).Sublist
      (entryNames items) ∧
    ((process_items items d rf rfo m lvl anc).2.map Prod.fst).Sublist
      (entryNames items) := by
  induction items using EntryList.induct with
  | nil => simp [process_items, entryNames]
  | cons e es ih =>
      rw [process_items_cons_decomp]
      cases e with
      | file n c =>
          refine ⟨?_, ?_⟩
          · by_cases hc : should_process_item (pjoin d n) true rf rfo m anc = true
            · simp only [hc, if_true, List.map_cons, List.map_append,
                List.singleton_append, entryNames, entryName]
              exact ih.1.cons₂ n
            · simp only [hc, Bool.false_eq_true, if_false, List.nil_append,
                entryNames, entryName]
              exact ih.1.cons n
          · simp only [List.nil_append, entryNames, entryName]
            exact ih.2.cons n
      | dir n sub =>
          refine ⟨?_, ?_⟩
          · simp only [List.nil_append, entryNames, entryName]
            exact ih.1.cons n
          · by_cases hc : (should_process_item (pjoin d n) false rf rfo m anc ||
                (m == .whitelist &&
                  can_contain_whitelisted (pjoin d n) rf rfo)) = true
            · simp only [hc, if_true, List.map_cons, List.map_append,
                List.singleton_append, entryNames, entryName]
              exact ih.2.cons₂ n
            · simp only [hc, Bool.false_eq_true, if_false, List.nil_append,
                entryNames, entryName]
              exact ih.2.cons n

/-- Building an entry list preserves emptiness. -/
theorem isNil_ofList (L : List Entry) : (ofList L).isNil = L.isEmpty := by
  cases L <;> rfl

/-- The canonicalised, sorted listing is empty exactly when the original
one is. -/
theorem isNil_canon_sorted (items : EntryList) :
    (ofList (insertionSortBy entryLe (canonEntries items))).isNil =
      items.isNil := by
  rw [isNil_ofList, isEmpty_insertionSortBy]
  cases items with
  | nil => rfl
  | cons e es => rw [canonEntries_cons]; rfl

/-- The name-keyed pair sort is sorted. -/
theorem pairwise_sortPairs {β : Type} (l : List (String × β)) :
    List.Pairwise (fun x y => strLe x.1 y.1 = true)
      (insertionSortBy (fun a b => strLe a.1 b.1) l) :=
  pairwise_insertionSortBy (fun a b => strLe a.1 b.1)
    (fun a b => strLe_total a.1 b.1)
    (fun a b c hab hbc => by exact strLe_trans hab hbc) l

mutual

/-- Processing the canonical form of a well-formed listing produces exactly
the same result as processing the listing itself: the walk's output depends
on the enumeration order of each directory only through the name sorts. -/
theorem process_canon : ∀ (t : DirListing), nodupNames t = true →
    ∀ (d : String) (rf rfo : List String) (m : FilterMode) (lvl : Nat)
      (anc : List String),
    process_directory (canonListing t) d rf rfo m lvl anc =
      process_directory t d rf rfo m lvl anc := fun t =>
  match t with
  | .err _ => fun _ _ _ _ _ _ _ => rfl
  | .ok items => by
      intro hn d rf rfo m lvl anc
      simp only [nodupNames, Bool.and_eq_true, decide_eq_true_eq] at hn
      obtain ⟨hnn, hne⟩ := hn
      have hpi := process_items_canon items hne d rf rfo m lvl
        (extend_ancestors m rfo d anc)
      have hp := process_items_perm
        (insertionSortBy_perm entryLe (canonEntries items)) d rf rfo m lvl
        (extend_ancestors m rfo d anc)
      rw [hpi] at hp
      have hkeyfiles : ((process_items items d rf rfo m lvl
          (extend_ancestors m rfo d anc)).1.map Prod.fst).Nodup :=
        (process_items_keys_sublist items d rf rfo m lvl
          (extend_ancestors m rfo d anc)).1.nodup hnn
      have hkeydirs : ((process_items items d rf rfo m lvl
          (extend_ancestors m rfo d anc)).2.map Prod.fst).Nodup :=
        (process_items_keys_sublist items d rf rfo m lvl
          (extend_ancestors m rfo d anc)).2.nodup hnn
      have e1 : insertionSortBy (fun a b => strLe a.1 b.1)
          (process_items (ofList (insertionSortBy entryLe (canonEntries items)))
            d rf rfo m lvl (extend_ancestors m rfo d anc)).1 =
          insertionSortBy (fun a b => strLe a.1 b.1)
          (process_items items d rf rfo m lvl
            (extend_ancestors m rfo d anc)).1 := by
        apply sorted_perm_eq_of_nodup_keys Prod.fst
        · exact (insertionSortBy_perm _ _).trans
            (hp.1.trans (insertionSortBy_perm _ _).symm)
        · exact pairwise_sortPairs _
        · exact pairwise_sortPairs _
        · rw [((insertionSortBy_perm (fun a b => strLe a.1 b.1) _).map
            Prod.fst).nodup_iff, (hp.1.map Prod.fst).nodup_iff]
          exact hkeyfiles
      have e2 : insertionSortBy (fun a b => strLe a.1 b.1)
          (process_items (ofList (insertionSortBy entryLe (canonEntries items)))
            d rf rfo m lvl (extend_ancestors m rfo d anc)).2 =
          insertionSortBy (fun a b => strLe a.1 b.1)
          (process_items items d rf rfo m lvl
            (extend_ancestors m rfo d anc)).2 := by
        apply sorted_perm_eq_of_nodup_keys Prod.fst
        · exact (insertionSortBy_perm _ _).trans
            (hp.2.trans (insertionSortBy_perm _ _).symm)
        · exact pairwise_sortPairs _
        · exact pairwise_sortPairs _
        · rw [((insertionSortBy_perm (fun a b => strLe a.1 b.1) _).map
            Prod.fst).nodup_iff, (hp.2.map Prod.fst).nodup_iff]
          exact hkeydirs
      have e3 := isNil_canon_sorted items
      simp only [canonListing, process_directory.eq_def]
      rw [e1, e2, e3]

/-- Processing the entrywise-canonicalised entries (before any sorting)
gives literally the same categorisation results. -/
theorem process_items_canon : ∀ (items : EntryList),
    nodupEntries items = true →
    ∀ (d : String) (rf rfo : List String) (m : FilterMode) (lvl : Nat)
      (anc : List String),
    process_items (ofList (canonEntries items)) d rf rfo m lvl anc =
      process_items items d rf rfo m lvl anc := fun items =>
  match items with
  | .nil => fun _ _ _ _ _ _ _ => rfl
  | .cons (.file n c) es => by
      intro hn d rf rfo m lvl anc
      have hrest := process_items_canon es (by simpa [nodupEntries] using hn)
        d rf rfo m lvl anc
      simp only [canonEntries, ofList_cons, process_items, hrest]
  | .cons (.dir n sub) es => by
      intro hn d rf rfo m lvl anc
      simp only [nodupEntries, Bool.and_eq_true] at hn
      have hrest := process_items_canon es hn.2 d rf rfo m lvl anc
      have hsub := process_canon sub hn.1 (pjoin d n) rf rfo m (lvl + 1)
        (extend_ancestors m rfo (pjoin d n) anc)
      simp only [canonEntries, canonEntry, ofList_cons, process_items, hrest,
        hsub]

end

/-- C6: for one fixed directory tree enumerated in two (possibly different)
orders — listings related by `ListingShuffle`, names within each directory
duplicate-free as on a real filesystem — two invocations of
`process_directory` with the same rules, mode, depth and ancestors produce
byte-identical sink output, because files-to-emit and
directories-to-recurse are each sorted by name before any output is
written. -/
theorem walk_shuffle_deterministic (t₁ t₂ : DirListing)
    (hsh : ListingShuffle t₁ t₂) (hn : nodupNames t₁ = true) (d : String)
    (rf rfo : List String) (m : FilterMode) (lvl : Nat) (anc : List String) :
    renderAll (process_directory t₁ d rf rfo m lvl anc).1 =
      renderAll (process_directory t₂ d rf rfo m lvl anc).1 := by
  have hn₂ : nodupNames t₂ = true := by
    rw [← listingShuffle_nodup_eq hsh]
    exact hn
  rw [← process_canon t₁ hn d rf rfo m lvl anc,
    ← process_canon t₂ hn₂ d rf rfo m lvl anc, canon_eq_of_shuffle hsh hn]

/-- C6 witness: two enumerations of a directory holding files `a` and `b`
yield the same bytes. -/
theorem walk_shuffle_witness :
    renderAll (process_directory
        (.ok (.cons (.file "b" (.ok "B")) (.cons (.file "a" (.ok "A")) .nil)))
        "/r" [] [] .blacklist 0 []).1 =
      renderAll (process_directory
        (.ok (.cons (.file "a" (.ok "A")) (.cons (.file "b" (.ok "B")) .nil)))
        "/r" [] [] .blacklist 0 []).1 :=
  walk_shuffle_deterministic
    (.ok (.cons (.file "b" (.ok "B")) (.cons (.file "a" (.ok "A")) .nil)))
    (.ok (.cons (.file "a" (.ok "A")) (.cons (.file "b" (.ok "B")) .nil)))
    (by
      exact EntriesShuffle.swap (Entry.file "b" (Except.ok "B"))
        (Entry.file "a" (Except.ok "A")) EntryList.nil)
    (by decide) "/r" [] [] .blacklist 0 []
